import Mathlib

/-!
Verification of the range-value core of the duckdb-ranges extension
(src/src/ranges_extension.cpp).

The development shallowly embeds the pure value-level content of the
extension: the range data model (structs Int4Range and NumRange), the
fixed-width binary codec (SerializeInt4Range / DeserializeInt4Range and
the NUMRANGE twins), the text parser and formatter (ParseInt4Range,
Int4RangeToVarchar, ParseNumRange, NumRangeToVarchar) and the predicate
engine (IsEmpty, RangeOverlaps, RangeContains, RangeContainedBy).

Modelling choices:
- Byte buffers are lists of Nat, one entry per byte; theorems that need
  well-formed buffers carry the hypothesis that every entry is below 256.
- The int32 bounds are modelled as Int; the codec renders them as 4-byte
  little-endian twos-complement patterns, exactly what memcpy of an
  int32_t does on the little-endian hosts the extension targets.
- The double bounds are never interpreted by the codec (memcpy only), so
  the codec is modelled over the raw 64-bit patterns (RangeG Nat).
  The text layer and the predicates do interpret the doubles; there they
  are modelled as the exact rational values of finite IEEE-754 doubles
  (RangeG Rat).  Comparisons of finite doubles agree with the rational
  comparisons; NaN, infinities and negative zero are outside this model,
  and every concrete input used below is a finite double whose decimal
  rendering is exactly representable in binary64, so the model and the
  C++ code agree on all inputs that appear in any theorem.
- The predicate engine is additionally stated generically over arbitrary
  boolean comparison functions, because the C++ predicate bodies are
  comparison-polymorphic boolean formulas; the generic theorems therefore
  cover the float64 instantiation whatever IEEE comparison semantics the
  host gives, NaN included.
-/

set_option maxRecDepth 4000

attribute [local semireducible] Rat.add Rat.mul Rat.sub Rat.inv

namespace Ranges

/-- A range value over a scalar type, mirroring the C++ structs Int4Range and
NumRange from ranges_extension.cpp: two bounds plus two inclusivity flags. -/
structure RangeG (α : Type) where
  lower : α
  upper : α
  lower_inc : Bool
  upper_inc : Bool
  deriving DecidableEq, Repr

/-- The INT4RANGE value: bounds are 32-bit signed integers, modelled as Int.
The code only compares and memcpys them, so no int32 wrap-around occurs;
theorems about the codec carry the int32 range as a hypothesis. -/
abbrev Int4Range := RangeG Int

/-- The NUMRANGE value as interpreted by the predicates and the text layer:
bounds are the exact rational values of finite IEEE-754 doubles. -/
abbrev NumRange := RangeG Rat

/-- The NUMRANGE value as seen by the codec: SerializeNumRange and
DeserializeNumRange memcpy the raw 8-byte patterns of the doubles without
interpreting them, so the codec is modelled on the 64-bit bit patterns. -/
abbrev NumRangeBits := RangeG Nat

/-! ## Byte-level primitives (memcpy of fixed-width scalars) -/

/-- Little-endian rendering of a scalar bit pattern over w bytes: what memcpy
of a w-byte scalar writes on a little-endian host. -/
def natToBytesLE : Nat → Nat → List Nat
  | 0, _ => []
  | w + 1, n => n % 256 :: natToBytesLE w (n / 256)

/-- Reassembling a little-endian byte sequence into the scalar bit pattern:
what memcpy into a w-byte scalar reads. -/
def bytesToNatLE : List Nat → Nat
  | [] => 0
  | b :: bs => b + 256 * bytesToNatLE bs

/-- Twos-complement 32-bit pattern of an int32 value. -/
def int32ToNat (i : Int) : Nat := (i % (2 ^ 32)).toNat

/-- Int32 value of a 32-bit twos-complement pattern. -/
def natToInt32 (n : Nat) : Int := if n < 2 ^ 31 then (n : Int) else (n : Int) - 2 ^ 32

/-- The packed bounds flag byte, from SerializeInt4Range:
bounds = (lower_inc ? 0b10 : 0) | (upper_inc ? 0b01 : 0). -/
def flagsByte (li ui : Bool) : Nat := (if li then 2 else 0) ||| (if ui then 1 else 0)

/-- Unpacking of the flag byte, from DeserializeInt4Range:
lower_inc = (bounds & 0b10) != 0. -/
def flagLower (b : Nat) : Bool := decide (b &&& 2 ≠ 0)

/-- Unpacking of the flag byte, from DeserializeInt4Range:
upper_inc = (bounds & 0b01) != 0. -/
def flagUpper (b : Nat) : Bool := decide (b &&& 1 ≠ 0)

/-! ## Codec (SerializeInt4Range / DeserializeInt4Range, NUMRANGE twins) -/

/-- SerializeInt4Range: lower bytes, upper bytes, then the flag byte;
exactly 2 * sizeof(int32_t) + 1 = 9 bytes. -/
def SerializeInt4Range (r : Int4Range) : List Nat :=
  natToBytesLE 4 (int32ToNat r.lower) ++ natToBytesLE 4 (int32ToNat r.upper) ++
    [flagsByte r.lower_inc r.upper_inc]

/-- DeserializeInt4Range: throws InvalidInputException (the MalformedEncoding
failure, modelled as none) when the blob is shorter than 9 bytes; otherwise
reads the two int32 patterns and unpacks the flag byte.  Trailing bytes
beyond offset 8 are never read. -/
def DeserializeInt4Range (b : List Nat) : Option Int4Range :=
  if b.length < 9 then none
  else some { lower := natToInt32 (bytesToNatLE (b.take 4)),
              upper := natToInt32 (bytesToNatLE ((b.drop 4).take 4)),
              lower_inc := flagLower (b.getD 8 0),
              upper_inc := flagUpper (b.getD 8 0) }

/-- SerializeNumRange: identical layout with 8-byte scalars, 17 bytes total.
The double bounds are memcpyd, i.e. their raw 64-bit patterns are written. -/
def SerializeNumRange (r : NumRangeBits) : List Nat :=
  natToBytesLE 8 r.lower ++ natToBytesLE 8 r.upper ++
    [flagsByte r.lower_inc r.upper_inc]

/-- DeserializeNumRange: MalformedEncoding (none) when shorter than 17 bytes;
otherwise reads the two 64-bit patterns and unpacks the flag byte. -/
def DeserializeNumRange (b : List Nat) : Option NumRangeBits :=
  if b.length < 17 then none
  else some { lower := bytesToNatLE (b.take 8),
              upper := bytesToNatLE ((b.drop 8).take 8),
              lower_inc := flagLower (b.getD 16 0),
              upper_inc := flagUpper (b.getD 16 0) }

/-! ## Byte-level round-trip lemmas -/

theorem natToBytesLE_length (w n : Nat) : (natToBytesLE w n).length = w := by
  induction w generalizing n with
  | zero => rfl
  | succ w ih => simp [natToBytesLE, ih]

theorem natToBytesLE_lt (w n : Nat) : ∀ x ∈ natToBytesLE w n, x < 256 := by
  induction w generalizing n with
  | zero => intro x hx; simp [natToBytesLE] at hx
  | succ w ih =>
    intro x hx
    simp only [natToBytesLE, List.mem_cons] at hx
    rcases hx with h | h
    · exact h ▸ Nat.mod_lt _ (by norm_num)
    · exact ih _ x h

theorem bytesToNatLE_natToBytesLE (w n : Nat) (h : n < 2 ^ (8 * w)) :
    bytesToNatLE (natToBytesLE w n) = n := by
  induction w generalizing n with
  | zero => simp at h; simp [natToBytesLE, bytesToNatLE, h]
  | succ w ih =>
    have hdiv : n / 256 < 2 ^ (8 * w) := by
      apply Nat.div_lt_of_lt_mul
      calc n < 2 ^ (8 * (w + 1)) := h
        _ = 2 ^ (8 * w) * 256 := by ring
        _ = 256 * 2 ^ (8 * w) := by ring
    simp [natToBytesLE, bytesToNatLE, ih _ hdiv]
    omega

theorem bytesToNatLE_lt (bs : List Nat) (h : ∀ x ∈ bs, x < 256) :
    bytesToNatLE bs < 2 ^ (8 * bs.length) := by
  induction bs with
  | nil => simp [bytesToNatLE]
  | cons b bs ih =>
    have hb : b < 256 := h b (List.mem_cons_self _ _)
    have hrec := ih (fun x hx => h x (List.mem_cons_of_mem _ hx))
    simp only [bytesToNatLE, List.length_cons]
    have : 2 ^ (8 * (bs.length + 1)) = 256 * 2 ^ (8 * bs.length) := by ring
    rw [this]
    omega

theorem natToBytesLE_bytesToNatLE (bs : List Nat) (h : ∀ x ∈ bs, x < 256) :
    natToBytesLE bs.length (bytesToNatLE bs) = bs := by
  induction bs with
  | nil => rfl
  | cons b bs ih =>
    have hb : b < 256 := h b (List.mem_cons_self _ _)
    have hrec := ih (fun x hx => h x (List.mem_cons_of_mem _ hx))
    simp only [List.length_cons, natToBytesLE, bytesToNatLE]
    have e1 : (b + 256 * bytesToNatLE bs) % 256 = b := by omega
    have e2 : (b + 256 * bytesToNatLE bs) / 256 = bytesToNatLE bs := by omega
    rw [e1, e2, hrec]

theorem natToInt32_int32ToNat (i : Int) (h1 : -(2 ^ 31) ≤ i) (h2 : i < 2 ^ 31) :
    natToInt32 (int32ToNat i) = i := by
  unfold natToInt32 int32ToNat
  rcases le_or_lt 0 i with hpos | hneg
  · have hmod : i % (2 ^ 32) = i := Int.emod_eq_of_lt hpos (by omega)
    rw [hmod]
    have ht : i.toNat < 2 ^ 31 := by omega
    rw [if_pos ht, Int.toNat_of_nonneg hpos]
  · have hmod : i % (2 ^ 32) = i + 2 ^ 32 := by
      have : (i + 2 ^ 32) % (2 ^ 32) = i % (2 ^ 32) := by
        simpa using Int.add_mul_emod_self_left (a := i) (b := 2 ^ 32) (c := 1)
      rw [← this]
      exact Int.emod_eq_of_lt (by omega) (by omega)
    rw [hmod]
    have hge : ¬ ((i + 2 ^ 32).toNat < 2 ^ 31) := by omega
    simp only [hge, if_false]
    omega

theorem int32ToNat_lt (i : Int) : int32ToNat i < 2 ^ 32 := by
  unfold int32ToNat
  have := Int.emod_lt_of_pos i (b := 2 ^ 32) (by norm_num)
  omega

theorem int32ToNat_natToInt32 (n : Nat) (h : n < 2 ^ 32) :
    int32ToNat (natToInt32 n) = n := by
  unfold natToInt32 int32ToNat
  by_cases hl : n < 2 ^ 31
  · simp only [hl, if_true]
    rw [Int.emod_eq_of_lt (by omega) (by omega)]
    omega
  · simp only [hl, if_false]
    have : ((n : Int) - 2 ^ 32) % (2 ^ 32) = (n : Int) % (2 ^ 32) := by
      simpa using Int.sub_mul_emod_self_left (a := (n : Int)) (b := 2 ^ 32) (c := 1)
    rw [this, Int.emod_eq_of_lt (by omega) (by omega)]
    omega

theorem flag_roundtrip (li ui : Bool) :
    flagLower (flagsByte li ui) = li ∧ flagUpper (flagsByte li ui) = ui := by
  cases li <;> cases ui <;> decide

theorem flagsByte_bits (li ui : Bool) :
    (flagsByte li ui).testBit 1 = li ∧ (flagsByte li ui).testBit 0 = ui ∧
      ∀ k, 2 ≤ k → (flagsByte li ui).testBit k = false := by
  refine ⟨by cases li <;> cases ui <;> decide, by cases li <;> cases ui <;> decide, ?_⟩
  intro k hk
  have h4 : flagsByte li ui < 4 := by cases li <;> cases ui <;> decide
  have hpow : (4 : Nat) ≤ 2 ^ k := by
    calc (4 : Nat) = 2 ^ 2 := by norm_num
      _ ≤ 2 ^ k := Nat.pow_le_pow_right (by norm_num) hk
  exact Nat.testBit_eq_false_of_lt (by omega)

/-- Flag byte reconstruction: repacking the two unpacked booleans of any byte
keeps exactly the low two bits. -/
theorem flags_mask (n : Nat) (h : n < 256) :
    flagsByte (flagLower n) (flagUpper n) = n % 4 := by
  revert h
  revert n
  decide

/-! ## Predicate engine

The C++ predicate bodies are boolean formulas whose only dependence on the
scalar type is through operator< and operator== (operator> on both int32
and double is the argument-swapped operator<).  They are modelled once,
generically over the two boolean comparison functions, and instantiated at
Int for INT4RANGE and at Rat for NUMRANGE. -/

/-- IsEmpty / IsEmptyNum from ranges_extension.cpp:
lower > upper is empty; equal bounds are empty unless both inclusive. -/
def isEmptyG (lt eq : α → α → Bool) (r : RangeG α) : Bool :=
  if lt r.upper r.lower then true
  else if eq r.lower r.upper then !(r.lower_inc && r.upper_inc)
  else false

/-- The overlap test from RangeOverlaps / NumRangeOverlaps:
false when either operand is empty, else neither is entirely left of the
other. -/
def overlapsG (lt eq : α → α → Bool) (r1 r2 : RangeG α) : Bool :=
  if isEmptyG lt eq r1 || isEmptyG lt eq r2 then false
  else
    let r1_left_of_r2 :=
      lt r1.upper r2.lower || (eq r1.upper r2.lower && (!r1.upper_inc || !r2.lower_inc))
    let r2_left_of_r1 :=
      lt r2.upper r1.lower || (eq r2.upper r1.lower && (!r2.upper_inc || !r1.lower_inc))
    !(r1_left_of_r2 || r2_left_of_r1)

/-- The containment test from RangeContains / NumRangeContains. -/
def containsG (lt eq : α → α → Bool) (r : RangeG α) (v : α) : Bool :=
  if isEmptyG lt eq r then false
  else
    let above_lower := lt r.lower v || (eq v r.lower && r.lower_inc)
    let below_upper := lt v r.upper || (eq v r.upper && r.upper_inc)
    above_lower && below_upper

/-- The body of RangeContainedBy / NumRangeContainedBy, transcribed on its
own: the C++ function repeats the containment formula with the argument
order reversed. -/
def containedByG (lt eq : α → α → Bool) (v : α) (r : RangeG α) : Bool :=
  if isEmptyG lt eq r then false
  else
    let above_lower := lt r.lower v || (eq v r.lower && r.lower_inc)
    let below_upper := lt v r.upper || (eq v r.upper && r.upper_inc)
    above_lower && below_upper

/-- Boolean operator< of int32. -/
def intLt (a b : Int) : Bool := decide (a < b)

/-- Boolean operator== of int32. -/
def intEq (a b : Int) : Bool := decide (a = b)

/-- Boolean operator< of finite doubles (rational comparison). -/
def ratLt (a b : Rat) : Bool := decide (a < b)

/-- Boolean operator== of finite doubles (rational comparison). -/
def ratEq (a b : Rat) : Bool := decide (a = b)

/-- IsEmpty for INT4RANGE values. -/
def IsEmpty (r : Int4Range) : Bool := isEmptyG intLt intEq r

/-- IsEmptyNum for NUMRANGE values. -/
def IsEmptyNum (r : NumRange) : Bool := isEmptyG ratLt ratEq r

/-! ## Blob-level operations (the lambdas of the SQL functions)

The C++ scalar functions receive serialized blobs, deserialize, and apply
the value-level logic; deserialization failure surfaces as an exception,
modelled as none. -/

/-- ConstructInt4RangeValue: build and serialize. -/
def ConstructInt4RangeValue (lower upper : Int) (li ui : Bool) : List Nat :=
  SerializeInt4Range ⟨lower, upper, li, ui⟩

/-- The 2-argument constructor int4range(lower, upper): default bounds [). -/
def Int4RangeConstructor2 (lower upper : Int) : List Nat :=
  ConstructInt4RangeValue lower upper true false

/-- The bounds-token mapping of the 3-argument constructors: empty token
defaults to [), the four tokens map to their flag pairs, anything else is
the InvalidBoundsNotation (InvalidInputException) failure. -/
def parseBoundsToken (cs : List Char) : Option (Bool × Bool) :=
  if cs.isEmpty then some (true, false)
  else if cs = ['[', ')'] then some (true, false)
  else if cs = ['[', ']'] then some (true, true)
  else if cs = ['(', ']'] then some (false, true)
  else if cs = ['(', ')'] then some (false, false)
  else none

/-- The 3-argument constructor int4range(lower, upper, bounds). -/
def Int4RangeConstructor3 (lower upper : Int) (bounds : List Char) : Option (List Nat) :=
  (parseBoundsToken bounds).map fun p => ConstructInt4RangeValue lower upper p.1 p.2

/-- The isempty(INT4RANGE) accessor: deserialize then IsEmpty. -/
def RangeIsEmpty (b : List Nat) : Option Bool :=
  (DeserializeInt4Range b).map IsEmpty

/-- The range_overlaps(INT4RANGE, INT4RANGE) lambda. -/
def RangeOverlaps (b1 b2 : List Nat) : Option Bool := do
  let r1 ← DeserializeInt4Range b1
  let r2 ← DeserializeInt4Range b2
  pure (overlapsG intLt intEq r1 r2)

/-- The range_contains(INT4RANGE, INTEGER) lambda. -/
def RangeContains (b : List Nat) (v : Int) : Option Bool :=
  (DeserializeInt4Range b).map fun r => containsG intLt intEq r v

/-- The contained-by lambda for the <@ operator. -/
def RangeContainedBy (v : Int) (b : List Nat) : Option Bool :=
  (DeserializeInt4Range b).map fun r => containedByG intLt intEq v r

/-! ## Spec-side predicate definitions

These restate the predicates in the words of the specification, to be
compared against the code-derived definitions above. -/

/-- Emptiness as the spec words it: lower > upper, or equal bounds not both
inclusive. -/
def isEmptySpec (lt eq : α → α → Bool) (r : RangeG α) : Bool :=
  lt r.upper r.lower || (eq r.lower r.upper && !(r.lower_inc && r.upper_inc))

/-- Overlap as the spec words it: false on an empty operand, otherwise
NOT(left OR right) with the two entirely-left-of conditions. -/
def overlapsSpec (lt eq : α → α → Bool) (r1 r2 : RangeG α) : Bool :=
  if isEmptySpec lt eq r1 || isEmptySpec lt eq r2 then false
  else
    !((lt r1.upper r2.lower || (eq r1.upper r2.lower && (!r1.upper_inc || !r2.lower_inc))) ||
      (lt r2.upper r1.lower || (eq r2.upper r1.lower && (!r2.upper_inc || !r1.lower_inc))))

/-- Containment as the spec words it: false on empty, else
above_lower AND below_upper. -/
def containsSpec (lt eq : α → α → Bool) (r : RangeG α) (v : α) : Bool :=
  if isEmptySpec lt eq r then false
  else
    (lt r.lower v || (eq v r.lower && r.lower_inc)) &&
      (lt v r.upper || (eq v r.upper && r.upper_inc))

theorem isEmptyG_eq_spec (lt eq : α → α → Bool) (r : RangeG α) :
    isEmptyG lt eq r = isEmptySpec lt eq r := by
  unfold isEmptyG isEmptySpec
  by_cases h1 : lt r.upper r.lower <;> by_cases h2 : eq r.lower r.upper <;>
    simp [h1, h2]

/-! ## List plumbing for the codec proofs -/

theorem getD_append_add (l1 l2 : List α) (n : Nat) (d : α) :
    (l1 ++ l2).getD (l1.length + n) d = l2.getD n d := by
  induction l1 with
  | nil => simp
  | cons a l ih => simpa [Nat.succ_add] using ih

theorem getD_take (l : List α) (m n : Nat) (h : m < n) (d : α) :
    (l.take n).getD m d = l.getD m d := by
  induction l generalizing m n with
  | nil => simp
  | cons a l ih =>
    cases n with
    | zero => omega
    | succ n =>
      cases m with
      | zero => rfl
      | succ m => simpa using ih m n (by omega)

theorem getD_mem_of_lt (l : List α) (m : Nat) (d : α) (h : m < l.length) :
    l.getD m d ∈ l := by
  rw [List.getD_eq_getElem l d h]
  exact List.getElem_mem h

theorem take_append_of_length (l1 l2 : List α) (n : Nat) (h : l1.length = n) :
    (l1 ++ l2).take n = l1 := by
  rw [← h]; exact List.take_left l1 l2

theorem drop_append_of_length (l1 l2 : List α) (n : Nat) (h : l1.length = n) :
    (l1 ++ l2).drop n = l2 := by
  rw [← h]; exact List.drop_left l1 l2

/-- Structure of a serialized buffer: scalar block, scalar block, flag byte. -/
theorem codec_parts (A B : List Nat) (f : Nat) (wa wb : Nat)
    (hA : A.length = wa) (hB : B.length = wb) :
    (A ++ (B ++ [f])).take wa = A ∧ (A ++ (B ++ [f])).drop wa = B ++ [f] ∧
      (A ++ (B ++ [f])).getD (wa + wb) 0 = f ∧
      (A ++ (B ++ [f])).length = wa + wb + 1 := by
  refine ⟨take_append_of_length _ _ _ hA, drop_append_of_length _ _ _ hA, ?_, ?_⟩
  · have e : wa + wb = A.length + (B.length + 0) := by omega
    rw [e, getD_append_add, getD_append_add]
    rfl
  · have : (A ++ (B ++ [f])).length = A.length + (B.length + 1) := by simp
    omega

/-! ## Claim C1: binary round trip -/

/-- C1: for every Range Value of either variant, deserialize(serialize(v))
equals v field-for-field; serialize writes exactly 2*sizeof(T)+1 bytes,
ending in a flag byte whose bit 1 is lower_inclusive, bit 0 is
upper_inclusive, and all other bits are zero. -/
theorem serialize_deserialize_roundtrip :
    (∀ r : Int4Range, -(2 ^ 31) ≤ r.lower → r.lower < 2 ^ 31 →
      -(2 ^ 31) ≤ r.upper → r.upper < 2 ^ 31 →
      (SerializeInt4Range r).length = 9 ∧
      DeserializeInt4Range (SerializeInt4Range r) = some r ∧
      ((SerializeInt4Range r).getD 8 0).testBit 1 = r.lower_inc ∧
      ((SerializeInt4Range r).getD 8 0).testBit 0 = r.upper_inc ∧
      (∀ k, 2 ≤ k → ((SerializeInt4Range r).getD 8 0).testBit k = false)) ∧
    (∀ r : NumRangeBits, r.lower < 2 ^ 64 → r.upper < 2 ^ 64 →
      (SerializeNumRange r).length = 17 ∧
      DeserializeNumRange (SerializeNumRange r) = some r ∧
      ((SerializeNumRange r).getD 16 0).testBit 1 = r.lower_inc ∧
      ((SerializeNumRange r).getD 16 0).testBit 0 = r.upper_inc ∧
      (∀ k, 2 ≤ k → ((SerializeNumRange r).getD 16 0).testBit k = false)) := by
  constructor
  · intro r h1 h2 h3 h4
    obtain ⟨htakeA, hdrop, hgetD, hlen⟩ :=
      codec_parts (natToBytesLE 4 (int32ToNat r.lower))
        (natToBytesLE 4 (int32ToNat r.upper))
        (flagsByte r.lower_inc r.upper_inc) 4 4
        (natToBytesLE_length 4 _) (natToBytesLE_length 4 _)
    have hser : SerializeInt4Range r =
        natToBytesLE 4 (int32ToNat r.lower) ++
          (natToBytesLE 4 (int32ToNat r.upper) ++ [flagsByte r.lower_inc r.upper_inc]) := by
      simp [SerializeInt4Range]
    have hflag : (SerializeInt4Range r).getD 8 0 = flagsByte r.lower_inc r.upper_inc := by
      rw [hser]; exact hgetD
    refine ⟨by rw [hser]; exact hlen, ?_, ?_, ?_, ?_⟩
    · rw [DeserializeInt4Range, if_neg (by rw [hser, hlen]; omega)]
      rw [hser, htakeA, hdrop]
      rw [← hser, hflag]
      rw [take_append_of_length _ _ 4 (natToBytesLE_length 4 _),
          bytesToNatLE_natToBytesLE 4 _
            (lt_of_lt_of_le (int32ToNat_lt r.lower) (by norm_num)),
          bytesToNatLE_natToBytesLE 4 _
            (lt_of_lt_of_le (int32ToNat_lt r.upper) (by norm_num)),
          natToInt32_int32ToNat _ h1 h2, natToInt32_int32ToNat _ h3 h4,
          (flag_roundtrip r.lower_inc r.upper_inc).1,
          (flag_roundtrip r.lower_inc r.upper_inc).2]
    · rw [hflag]; exact (flagsByte_bits r.lower_inc r.upper_inc).1
    · rw [hflag]; exact (flagsByte_bits r.lower_inc r.upper_inc).2.1
    · intro k hk; rw [hflag]; exact (flagsByte_bits r.lower_inc r.upper_inc).2.2 k hk
  · intro r h1 h2
    obtain ⟨htakeA, hdrop, hgetD, hlen⟩ :=
      codec_parts (natToBytesLE 8 r.lower) (natToBytesLE 8 r.upper)
        (flagsByte r.lower_inc r.upper_inc) 8 8
        (natToBytesLE_length 8 _) (natToBytesLE_length 8 _)
    have hser : SerializeNumRange r =
        natToBytesLE 8 r.lower ++
          (natToBytesLE 8 r.upper ++ [flagsByte r.lower_inc r.upper_inc]) := by
      simp [SerializeNumRange]
    have hflag : (SerializeNumRange r).getD 16 0 = flagsByte r.lower_inc r.upper_inc := by
      rw [hser]; exact hgetD
    refine ⟨by rw [hser]; exact hlen, ?_, ?_, ?_, ?_⟩
    · rw [DeserializeNumRange, if_neg (by rw [hser, hlen]; omega)]
      rw [hser, htakeA, hdrop]
      rw [← hser, hflag]
      rw [take_append_of_length _ _ 8 (natToBytesLE_length 8 _),
          bytesToNatLE_natToBytesLE 8 _ (lt_of_lt_of_le h1 (by norm_num)),
          bytesToNatLE_natToBytesLE 8 _ (lt_of_lt_of_le h2 (by norm_num)),
          (flag_roundtrip r.lower_inc r.upper_inc).1,
          (flag_roundtrip r.lower_inc r.upper_inc).2]
    · rw [hflag]; exact (flagsByte_bits r.lower_inc r.upper_inc).1
    · rw [hflag]; exact (flagsByte_bits r.lower_inc r.upper_inc).2.1
    · intro k hk; rw [hflag]; exact (flagsByte_bits r.lower_inc r.upper_inc).2.2 k hk

/-- C1 witness: the round trip evaluated at concrete ranges of both
variants. -/
theorem serialize_deserialize_roundtrip_witness :
    DeserializeInt4Range (SerializeInt4Range ⟨-5, 7, true, false⟩) =
        some ⟨-5, 7, true, false⟩ ∧
      DeserializeNumRange (SerializeNumRange ⟨3, 2 ^ 63, false, true⟩) =
        some ⟨3, 2 ^ 63, false, true⟩ :=
  ⟨(serialize_deserialize_roundtrip.1 ⟨-5, 7, true, false⟩
      (by decide) (by decide) (by decide) (by decide)).2.1,
    (serialize_deserialize_roundtrip.2 ⟨3, 2 ^ 63, false, true⟩
      (by norm_num) (by norm_num)).2.1⟩

/-! ## Claims C4, C5, C6: predicate engine -/

/-- C4: is_empty(r) is true iff lower > upper, or lower == upper and not
both bounds inclusive; construct(5,5,()) is empty, construct(5,5,[]) is
non-empty, construct(5,1,[)) is empty.  The generic equation covers both
scalar variants, whatever comparison semantics the scalar has; the
concrete cases go through the full constructor/serialize/deserialize
pipeline of the code. -/
theorem isEmpty_characterization :
    (∀ (α : Type) (lt eq : α → α → Bool) (r : RangeG α),
        isEmptyG lt eq r = isEmptySpec lt eq r) ∧
    ((Int4RangeConstructor3 5 5 ['(', ')']).bind RangeIsEmpty) = some true ∧
    ((Int4RangeConstructor3 5 5 ['[', ']']).bind RangeIsEmpty) = some false ∧
    ((Int4RangeConstructor3 5 1 ['[', ')']).bind RangeIsEmpty) = some true := by
  refine ⟨?_, by decide, by decide, by decide⟩
  intro α lt eq r
  exact isEmptyG_eq_spec lt eq r

/-- C5: overlaps is false when either operand is empty, and otherwise is
NOT(left OR right) with the two entirely-left-of conditions; adjacent
half-open ranges [1,5) and [5,10) do not overlap while adjacent closed
ranges [1,5] and [5,10] do. -/
theorem overlaps_characterization :
    (∀ (α : Type) (lt eq : α → α → Bool) (r1 r2 : RangeG α),
        overlapsG lt eq r1 r2 = overlapsSpec lt eq r1 r2) ∧
    RangeOverlaps (Int4RangeConstructor2 1 5) (Int4RangeConstructor2 5 10) =
      some false ∧
    ((Int4RangeConstructor3 1 5 ['[', ']']).bind fun b1 =>
      (Int4RangeConstructor3 5 10 ['[', ']']).bind fun b2 =>
        RangeOverlaps b1 b2) = some true := by
  refine ⟨?_, by decide, by decide⟩
  intro α lt eq r1 r2
  unfold overlapsG overlapsSpec
  rw [isEmptyG_eq_spec, isEmptyG_eq_spec]

/-- C6: contains is false on an empty range and otherwise is
above_lower AND below_upper; contained_by computes exactly the same
predicate with the argument order reversed; contains([1,10),10) is false,
contains([1,10],10) is true, contains([1,10),1) is true. -/
theorem contains_characterization :
    (∀ (α : Type) (lt eq : α → α → Bool) (r : RangeG α) (v : α),
        containsG lt eq r v = containsSpec lt eq r v) ∧
    (∀ (α : Type) (lt eq : α → α → Bool) (v : α) (r : RangeG α),
        containedByG lt eq v r = containsG lt eq r v) ∧
    (∀ (b : List Nat) (v : Int), RangeContainedBy v b = RangeContains b v) ∧
    RangeContains (Int4RangeConstructor2 1 10) 10 = some false ∧
    ((Int4RangeConstructor3 1 10 ['[', ']']).bind fun b => RangeContains b 10) =
      some true ∧
    RangeContains (Int4RangeConstructor2 1 10) 1 = some true := by
  refine ⟨?_, ?_, ?_, by decide, by decide, by decide⟩
  · intro α lt eq r v
    unfold containsG containsSpec
    rw [isEmptyG_eq_spec]
  · intro α lt eq v r
    rfl
  · intro b v
    rfl

/-! ## Claim C9: deserialize length validation -/

/-- C9: deserialize fails with MalformedEncoding exactly when the buffer is
shorter than the fixed width (9 or 17 bytes); longer buffers deserialize
with trailing bytes ignored; out-of-order bounds are preserved as-is and
never rejected (concrete case: the serialized (5,1) buffer deserializes to
lower 5 and upper 1). -/
theorem deserialize_length_validation :
    (∀ b : List Nat, DeserializeInt4Range b = none ↔ b.length < 9) ∧
    (∀ b : List Nat, 9 ≤ b.length →
      DeserializeInt4Range b = DeserializeInt4Range (b.take 9)) ∧
    (∀ b : List Nat, DeserializeNumRange b = none ↔ b.length < 17) ∧
    (∀ b : List Nat, 17 ≤ b.length →
      DeserializeNumRange b = DeserializeNumRange (b.take 17)) ∧
    DeserializeInt4Range [0, 0, 0] = none ∧
    DeserializeInt4Range (SerializeInt4Range ⟨5, 1, true, false⟩) =
      some ⟨5, 1, true, false⟩ := by
  refine ⟨?_, ?_, ?_, ?_, by decide, by decide⟩
  · intro b
    unfold DeserializeInt4Range
    by_cases h : b.length < 9 <;> simp [h]
  · intro b hb
    unfold DeserializeInt4Range
    have hc : ¬ b.length < 9 := by omega
    have htl : ¬ (b.take 9).length < 9 := by
      simp [List.length_take]; omega
    rw [if_neg hc, if_neg htl]
    have e1 : (b.take 9).take 4 = b.take 4 := by
      rw [List.take_take]; norm_num
    have e2 : ((b.take 9).drop 4).take 4 = (b.drop 4).take 4 := by
      rw [List.drop_take, List.take_take]; norm_num
    have e3 : (b.take 9).getD 8 0 = b.getD 8 0 := getD_take b 8 9 (by omega) 0
    rw [e1, e2, e3]
  · intro b
    unfold DeserializeNumRange
    by_cases h : b.length < 17 <;> simp [h]
  · intro b hb
    unfold DeserializeNumRange
    have hc : ¬ b.length < 17 := by omega
    have htl : ¬ (b.take 17).length < 17 := by
      simp [List.length_take]; omega
    rw [if_neg hc, if_neg htl]
    have e1 : (b.take 17).take 8 = b.take 8 := by
      rw [List.take_take]; norm_num
    have e2 : ((b.take 17).drop 8).take 8 = (b.drop 8).take 8 := by
      rw [List.drop_take, List.take_take]; norm_num
    have e3 : (b.take 17).getD 16 0 = b.getD 16 0 := getD_take b 16 17 (by omega) 0
    rw [e1, e2, e3]

/-- C9 witness: trailing bytes beyond the fixed width are ignored on a
concrete 12-byte buffer. -/
theorem deserialize_length_validation_witness :
    DeserializeInt4Range [1, 0, 0, 0, 2, 0, 0, 0, 3, 9, 9, 9] =
      DeserializeInt4Range ([1, 0, 0, 0, 2, 0, 0, 0, 3, 9, 9, 9].take 9) :=
  deserialize_length_validation.2.1 [1, 0, 0, 0, 2, 0, 0, 0, 3, 9, 9, 9]
    (by decide)

/-! ## Claim C10: serialize after deserialize -/

/-- C10: for a buffer of exactly the fixed width, serialize(deserialize(b))
reproduces the scalar bytes exactly and masks the flag byte to its low two
bits; the byte-level composition is the identity exactly when the flag
byte is below 4. -/
theorem serialize_after_deserialize :
    (∀ (b : List Nat) (r : Int4Range), b.length = 9 → (∀ x ∈ b, x < 256) →
      DeserializeInt4Range b = some r →
      (SerializeInt4Range r).take 8 = b.take 8 ∧
      (SerializeInt4Range r).getD 8 0 = b.getD 8 0 % 4 ∧
      (SerializeInt4Range r = b ↔ b.getD 8 0 < 4)) ∧
    (∀ (b : List Nat) (r : NumRangeBits), b.length = 17 → (∀ x ∈ b, x < 256) →
      DeserializeNumRange b = some r →
      (SerializeNumRange r).take 16 = b.take 16 ∧
      (SerializeNumRange r).getD 16 0 = b.getD 16 0 % 4 ∧
      (SerializeNumRange r = b ↔ b.getD 16 0 < 4)) := by
  constructor
  · intro b r hlen hbytes hdes
    rw [DeserializeInt4Range, if_neg (by omega)] at hdes
    injection hdes with hr
    subst hr
    have hA : natToBytesLE 4 (int32ToNat (natToInt32 (bytesToNatLE (b.take 4)))) =
        b.take 4 := by
      have hmem : ∀ x ∈ b.take 4, x < 256 := fun x hx =>
        hbytes x (List.take_subset 4 b hx)
      have hlt : bytesToNatLE (b.take 4) < 2 ^ 32 := by
        have := bytesToNatLE_lt (b.take 4) hmem
        have hl4 : (b.take 4).length = 4 := by simp [List.length_take]; omega
        rw [hl4] at this
        exact lt_of_lt_of_le this (by norm_num)
      rw [int32ToNat_natToInt32 _ hlt]
      have hl4 : (b.take 4).length = 4 := by simp [List.length_take]; omega
      calc natToBytesLE 4 (bytesToNatLE (b.take 4))
          = natToBytesLE (b.take 4).length (bytesToNatLE (b.take 4)) := by rw [hl4]
        _ = b.take 4 := natToBytesLE_bytesToNatLE _ hmem
    have hB : natToBytesLE 4 (int32ToNat (natToInt32 (bytesToNatLE ((b.drop 4).take 4)))) =
        (b.drop 4).take 4 := by
      have hmem : ∀ x ∈ (b.drop 4).take 4, x < 256 := fun x hx =>
        hbytes x (List.drop_subset 4 b (List.take_subset 4 (b.drop 4) hx))
      have hl4 : ((b.drop 4).take 4).length = 4 := by
        simp [List.length_take, List.length_drop]; omega
      have hlt : bytesToNatLE ((b.drop 4).take 4) < 2 ^ 32 := by
        have := bytesToNatLE_lt ((b.drop 4).take 4) hmem
        rw [hl4] at this
        exact lt_of_lt_of_le this (by norm_num)
      rw [int32ToNat_natToInt32 _ hlt]
      calc natToBytesLE 4 (bytesToNatLE ((b.drop 4).take 4))
          = natToBytesLE ((b.drop 4).take 4).length (bytesToNatLE ((b.drop 4).take 4)) := by
            rw [hl4]
        _ = (b.drop 4).take 4 := natToBytesLE_bytesToNatLE _ hmem
    have hf : flagsByte (flagLower (b.getD 8 0)) (flagUpper (b.getD 8 0)) =
        b.getD 8 0 % 4 :=
      flags_mask _ (hbytes _ (getD_mem_of_lt b 8 0 (by omega)))
    have hser : SerializeInt4Range
          ⟨natToInt32 (bytesToNatLE (b.take 4)),
            natToInt32 (bytesToNatLE ((b.drop 4).take 4)),
            flagLower (b.getD 8 0), flagUpper (b.getD 8 0)⟩ =
        b.take 4 ++ ((b.drop 4).take 4 ++ [b.getD 8 0 % 4]) := by
      show natToBytesLE 4 _ ++ natToBytesLE 4 _ ++ [flagsByte _ _] = _
      rw [hA, hB, hf, List.append_assoc]
    have hl4 : (b.take 4).length = 4 := by simp [List.length_take]; omega
    have hl44 : ((b.drop 4).take 4).length = 4 := by
      simp [List.length_take, List.length_drop]; omega
    have htake8 : b.take 4 ++ (b.drop 4).take 4 = b.take 8 := by
      have : (8 : Nat) = 4 + 4 := by norm_num
      rw [this, List.take_add]
    have hsplit : b = b.take 8 ++ [b.getD 8 0] := by
      have hdl : (b.drop 8).length = 1 := by simp [List.length_drop]; omega
      obtain ⟨a, ha⟩ := List.length_eq_one.mp hdl
      have htk : (b.take 8).length = 8 := by simp [List.length_take]; omega
      have hb8 : b.getD 8 0 = a := by
        conv_lhs => rw [← List.take_append_drop 8 b, ha]
        generalize hg : b.take 8 = t
        rw [hg] at htk
        rw [show (8 : Nat) = t.length + 0 from by omega, getD_append_add]
        rfl
      rw [hb8]
      conv_lhs => rw [← List.take_append_drop 8 b, ha]
    refine ⟨?_, ?_, ?_⟩
    · rw [hser, ← List.append_assoc, take_append_of_length _ _ 8 (by simp [hl4, hl44]),
          htake8]
    · rw [hser]
      have e : (8 : Nat) = (b.take 4).length + (((b.drop 4).take 4).length + 0) := by
        rw [hl4, hl44]
      rw [e, getD_append_add, getD_append_add]
      rfl
    · rw [hser, ← List.append_assoc, htake8]
      constructor
      · intro he
        conv_rhs at he => rw [hsplit]
        have htail := List.append_cancel_left he
        have hmod : b.getD 8 0 % 4 = b.getD 8 0 := by simpa using htail
        omega
      · intro hlt4
        have hmod : b.getD 8 0 % 4 = b.getD 8 0 := by omega
        rw [hmod, ← hsplit]
  · intro b r hlen hbytes hdes
    rw [DeserializeNumRange, if_neg (by omega)] at hdes
    injection hdes with hr
    subst hr
    have hA : natToBytesLE 8 (bytesToNatLE (b.take 8)) = b.take 8 := by
      have hmem : ∀ x ∈ b.take 8, x < 256 := fun x hx =>
        hbytes x (List.take_subset 8 b hx)
      have hl8 : (b.take 8).length = 8 := by simp [List.length_take]; omega
      calc natToBytesLE 8 (bytesToNatLE (b.take 8))
          = natToBytesLE (b.take 8).length (bytesToNatLE (b.take 8)) := by rw [hl8]
        _ = b.take 8 := natToBytesLE_bytesToNatLE _ hmem
    have hB : natToBytesLE 8 (bytesToNatLE ((b.drop 8).take 8)) = (b.drop 8).take 8 := by
      have hmem : ∀ x ∈ (b.drop 8).take 8, x < 256 := fun x hx =>
        hbytes x (List.drop_subset 8 b (List.take_subset 8 (b.drop 8) hx))
      have hl8 : ((b.drop 8).take 8).length = 8 := by
        simp [List.length_take, List.length_drop]; omega
      calc natToBytesLE 8 (bytesToNatLE ((b.drop 8).take 8))
          = natToBytesLE ((b.drop 8).take 8).length (bytesToNatLE ((b.drop 8).take 8)) := by
            rw [hl8]
        _ = (b.drop 8).take 8 := natToBytesLE_bytesToNatLE _ hmem
    have hf : flagsByte (flagLower (b.getD 16 0)) (flagUpper (b.getD 16 0)) =
        b.getD 16 0 % 4 :=
      flags_mask _ (hbytes _ (getD_mem_of_lt b 16 0 (by omega)))
    have hser : SerializeNumRange
          ⟨bytesToNatLE (b.take 8), bytesToNatLE ((b.drop 8).take 8),
            flagLower (b.getD 16 0), flagUpper (b.getD 16 0)⟩ =
        b.take 8 ++ ((b.drop 8).take 8 ++ [b.getD 16 0 % 4]) := by
      show natToBytesLE 8 _ ++ natToBytesLE 8 _ ++ [flagsByte _ _] = _
      rw [hA, hB, hf, List.append_assoc]
    have hl8 : (b.take 8).length = 8 := by simp [List.length_take]; omega
    have hl88 : ((b.drop 8).take 8).length = 8 := by
      simp [List.length_take, List.length_drop]; omega
    have htake16 : b.take 8 ++ (b.drop 8).take 8 = b.take 16 := by
      have : (16 : Nat) = 8 + 8 := by norm_num
      rw [this, List.take_add]
    have hsplit : b = b.take 16 ++ [b.getD 16 0] := by
      have hdl : (b.drop 16).length = 1 := by simp [List.length_drop]; omega
      obtain ⟨a, ha⟩ := List.length_eq_one.mp hdl
      have htk : (b.take 16).length = 16 := by simp [List.length_take]; omega
      have hb16 : b.getD 16 0 = a := by
        conv_lhs => rw [← List.take_append_drop 16 b, ha]
        generalize hg : b.take 16 = t
        rw [hg] at htk
        rw [show (16 : Nat) = t.length + 0 from by omega, getD_append_add]
        rfl
      rw [hb16]
      conv_lhs => rw [← List.take_append_drop 16 b, ha]
    refine ⟨?_, ?_, ?_⟩
    · rw [hser, ← List.append_assoc, take_append_of_length _ _ 16 (by simp [hl8, hl88]),
          htake16]
    · rw [hser]
      have e : (16 : Nat) = (b.take 8).length + (((b.drop 8).take 8).length + 0) := by
        rw [hl8, hl88]
      rw [e, getD_append_add, getD_append_add]
      rfl
    · rw [hser, ← List.append_assoc, htake16]
      constructor
      · intro he
        conv_rhs at he => rw [hsplit]
        have htail := List.append_cancel_left he
        have hmod : b.getD 16 0 % 4 = b.getD 16 0 := by simpa using htail
        omega
      · intro hlt4
        have hmod : b.getD 16 0 % 4 = b.getD 16 0 := by omega
        rw [hmod, ← hsplit]

/-- C10 witness: a concrete 9-byte buffer with flag byte 0xFF loses its
high flag bits and only those, and a flag byte below 4 round-trips
byte-identically. -/
theorem serialize_after_deserialize_witness :
    ((SerializeInt4Range ⟨1, 2, true, true⟩).take 8 =
        [1, 0, 0, 0, 2, 0, 0, 0, 255].take 8 ∧
      (SerializeInt4Range ⟨1, 2, true, true⟩).getD 8 0 =
        [1, 0, 0, 0, 2, 0, 0, 0, 255].getD 8 0 % 4) ∧
    (SerializeInt4Range ⟨1, 2, true, true⟩ = [1, 0, 0, 0, 2, 0, 0, 0, 255] ↔
      ([1, 0, 0, 0, 2, 0, 0, 0, 255] : List Nat).getD 8 0 < 4) := by
  have h := serialize_after_deserialize.1 [1, 0, 0, 0, 2, 0, 0, 0, 255]
    ⟨1, 2, true, true⟩ (by decide) (by decide) (by decide)
  exact ⟨⟨h.1, h.2.1⟩, h.2.2⟩

/-! ## Character utilities -/

/-- Shorthand: the character list of a string literal. -/
def strL (s : String) : List Char := s.data

/-- The C-locale isspace set honoured by the strtol/strtod family. -/
def isCSpace (c : Char) : Bool :=
  (c == ' ') || (c == '\t') || (c == '\n') || (c == '\x0b') || (c == '\x0c') || (c == '\r')

/-- ASCII lower-casing, as StringUtil::CharacterToLower. -/
def toLowerAscii (c : Char) : Char :=
  if 'A' ≤ c ∧ c ≤ 'Z' then Char.ofNat (c.toNat + 32) else c

/-- StringUtil::CIEquals: ASCII case-insensitive string equality. -/
def ciEquals : List Char → List Char → Bool
  | [], [] => true
  | a :: as, b :: bs => (toLowerAscii a == toLowerAscii b) && ciEquals as bs
  | _, _ => false

/-- Value of a digit string, most significant digit first. -/
def digitsToNat (cs : List Char) : Nat :=
  cs.foldl (fun acc c => 10 * acc + (c.toNat - 48)) 0

/-- The optional sign prefix consumed by the strtol/strtod family. -/
def signSplit (cs : List Char) : Int × List Char :=
  match cs with
  | [] => (1, [])
  | c :: rest =>
      if c = '+' then (1, rest)
      else if c = '-' then (-1, rest)
      else (1, c :: rest)

/-- Modelled from the C++ standard library std::stoi (not part of this
repository): skip C-locale whitespace, read an optional sign, read the
longest run of decimal digits (failing when that run is empty), ignore
everything after it, and fail when the resulting value falls outside the
int32 range (std::stoi reports out_of_range, caught by the caller). -/
def stoiL (cs : List Char) : Option Int :=
  let cs1 := cs.dropWhile isCSpace
  let sp := signSplit cs1
  let digits := sp.2.takeWhile Char.isDigit
  if digits.isEmpty then none
  else
    let v : Int := sp.1 * (digitsToNat digits : Int)
    if v < -(2 ^ 31) ∨ 2 ^ 31 - 1 < v then none
    else some v

/-- Exponent part consumed by strtod after an e or E: an optional sign and
digits; when no digit follows, strtod does not consume the exponent and the
contributed exponent is zero. -/
def expVal (cs : List Char) : Int :=
  let sp := signSplit cs
  let ds := sp.2.takeWhile Char.isDigit
  if ds.isEmpty then 0 else sp.1 * (digitsToNat ds : Int)

/-- Modelled from the spec: the floating bounds are parsed by std::stod,
which is not part of this repository; per the spec the scalar literals are
a "decimal integer, or decimal/exponential float".  The model follows the
strtod prefix conventions: skip C-locale whitespace, optional sign, then
the longest prefix digits[.digits][(e|E)[sign]digits] containing at least
one mantissa digit; everything after the prefix is ignored and the parse
fails only when no such prefix exists.  The returned value is the exact
rational value of the decimal literal; binary64 rounding is not modelled
(every literal used in a concrete theorem below is exactly representable
in binary64, where std::stod returns exactly this value), and hex floats,
inf/nan forms and overflow to the out_of_range error are outside the
model. -/
def stodQ (cs : List Char) : Option Rat :=
  let cs1 := cs.dropWhile isCSpace
  let sp := signSplit cs1
  let ip := sp.2.takeWhile Char.isDigit
  let cs3 := sp.2.drop ip.length
  let fp :=
    match cs3 with
    | '.' :: rest => rest.takeWhile Char.isDigit
    | _ => []
  let cs4 :=
    match cs3 with
    | '.' :: rest => rest.drop (rest.takeWhile Char.isDigit).length
    | _ => cs3
  if ip.isEmpty ∧ fp.isEmpty then none
  else
    let mantissa : Rat := (digitsToNat ip : Rat) + (digitsToNat fp : Rat) / (10 : Rat) ^ fp.length
    let ex : Int :=
      match cs4 with
      | 'e' :: rest => expVal rest
      | 'E' :: rest => expVal rest
      | _ => 0
    some ((sp.1 : Rat) * mantissa * (10 : Rat) ^ ex)

/-! ## Text parsers (ParseInt4Range / ParseNumRange) -/

/-- The error taxonomy of the text layer, following the spec names: the
three "Malformed range literal" InvalidInputException throws (too short,
bad delimiter, missing comma) are MalformedLiteral, and the
"Invalid integer/number in range literal" throw is InvalidScalar. -/
inductive RangeParseErr where
  | MalformedLiteral : RangeParseErr
  | InvalidScalar : RangeParseErr
  deriving DecidableEq, Repr

instance {ε α : Type} [DecidableEq ε] [DecidableEq α] : DecidableEq (Except ε α) :=
  fun a b =>
    match a, b with
    | .error x, .error y =>
      if h : x = y then .isTrue (by rw [h]) else .isFalse fun he => h (by injection he)
    | .ok x, .ok y =>
      if h : x = y then .isTrue (by rw [h]) else .isFalse fun he => h (by injection he)
    | .error x, .ok y => .isFalse fun he => Except.noConfusion he
    | .ok x, .error y => .isFalse fun he => Except.noConfusion he

/-- The opening delimiter test of the parsers. -/
def lowerIncOfChar (c : Char) : Option Bool :=
  if c = '[' then some true else if c = '(' then some false else none

/-- The closing delimiter test of the parsers. -/
def upperIncOfChar (c : Char) : Option Bool :=
  if c = ']' then some true else if c = ')' then some false else none

/-- std::string::find of the comma: index of the first comma, if any. -/
def findComma : List Char → Option Nat
  | [] => none
  | c :: rest => if c = ',' then some 0 else (findComma rest).map (· + 1)

/-- Common body of ParseInt4Range and ParseNumRange, which are textual
twins in the C++ source differing only in the scalar type, the scalar
parser and the canonical empty bounds: case-insensitive empty literal to
the canonical empty value; length and delimiter checks; first-comma
split; scalar parse of both bound substrings. -/
def parseRangeWith (scalar : List Char → Option α) (one zero : α)
    (cs : List Char) : Except RangeParseErr (RangeG α) :=
  if ciEquals cs (strL "empty") then .ok ⟨one, zero, false, false⟩
  else if cs.length < 3 then .error .MalformedLiteral
  else
    match lowerIncOfChar (cs.headD ' ') with
    | none => .error .MalformedLiteral
    | some li =>
      match upperIncOfChar (cs.getLastD ' ') with
      | none => .error .MalformedLiteral
      | some ui =>
        match findComma cs with
        | none => .error .MalformedLiteral
        | some k =>
          match scalar ((cs.drop 1).take (k - 1)),
              scalar ((cs.drop (k + 1)).take (cs.length - k - 2)) with
          | some lo, some hi => .ok ⟨lo, hi, li, ui⟩
          | _, _ => .error .InvalidScalar

/-- ParseInt4Range from ranges_extension.cpp: std::stoi on the bound
substrings, canonical empty at int 1 and 0. -/
def ParseInt4Range (cs : List Char) : Except RangeParseErr Int4Range :=
  parseRangeWith stoiL 1 0 cs

/-- ParseNumRange from ranges_extension.cpp: std::stod on the bound
substrings, canonical empty at 1.0 and 0.0. -/
def ParseNumRange (cs : List Char) : Except RangeParseErr NumRange :=
  parseRangeWith stodQ 1 0 cs

/-! ## Text formatters (Int4RangeToVarchar / NumRangeToVarchar) -/

/-- A decimal digit character. -/
def digitChar (n : Nat) : Char :=
  match n with
  | 0 => '0' | 1 => '1' | 2 => '2' | 3 => '3' | 4 => '4'
  | 5 => '5' | 6 => '6' | 7 => '7' | 8 => '8' | _ => '9'

/-- Digit accumulator for the decimal rendering; the fuel argument only
bounds the recursion depth and never runs out when it exceeds the number
of digits. -/
def natToDigitsAux : Nat → Nat → List Char → List Char
  | 0, _, acc => acc
  | fuel + 1, n, acc =>
      if n < 10 then digitChar n :: acc
      else natToDigitsAux fuel (n / 10) (digitChar (n % 10) :: acc)

/-- Decimal digits of n, most significant first, as std::to_string renders
a nonnegative integer. -/
def natToDigits (n : Nat) : List Char := natToDigitsAux (n + 1) n []

/-- std::to_string of an int32 value. -/
def intToString (i : Int) : List Char :=
  if i < 0 then '-' :: natToDigits i.natAbs else natToDigits i.toNat

/-- Int4RangeToVarchar (the value-level body of the INT4RANGE to VARCHAR
cast, after deserialization): empty ranges render as the empty literal,
anything else as delimiter, lower, comma, upper, delimiter. -/
def Int4RangeToVarchar (r : Int4Range) : List Char :=
  if IsEmpty r then strL "empty"
  else (if r.lower_inc then '[' else '(') ::
    (intToString r.lower ++
      (',' :: (intToString r.upper ++ [if r.upper_inc then ']' else ')'])))

/-- Round a rational to the nearest integer, ties to even: the rounding
that the %f conversion of vsnprintf applies to the exact value of a finite
double. -/
def roundHalfEven (q : Rat) : Int :=
  let f := q.floor
  let frac := q - (f : Rat)
  if frac < 1 / 2 then f
  else if 1 / 2 < frac then f + 1
  else if f % 2 = 0 then f else f + 1

/-- Six decimal digits with leading zeros. -/
def pad6 (m : Nat) : List Char :=
  [digitChar (m / 100000 % 10), digitChar (m / 10000 % 10), digitChar (m / 1000 % 10),
    digitChar (m / 100 % 10), digitChar (m / 10 % 10), digitChar (m % 10)]

/-- Fixed rendering with six digits after the point of a nonnegative
rational: the magnitude part of %f with the default precision 6. -/
def fixed6 (q : Rat) : List Char :=
  let n := (roundHalfEven (q * 10 ^ 6)).toNat
  natToDigits (n / 10 ^ 6) ++ ('.' :: pad6 (n % 10 ^ 6))

/-- Modelled from the C++ standard library std::to_string(double) (not
part of this repository): vsnprintf %f with precision 6 on the exact value
of the finite double; negative zero is outside the rational model. -/
def doubleToString (q : Rat) : List Char :=
  if q < 0 then '-' :: fixed6 (-q) else fixed6 q

/-- NumRangeToVarchar: as the integer variant, with std::to_string(double)
for the bounds. -/
def NumRangeToVarchar (r : NumRange) : List Char :=
  if IsEmptyNum r then strL "empty"
  else (if r.lower_inc then '[' else '(') ::
    (doubleToString r.lower ++
      (',' :: (doubleToString r.upper ++ [if r.upper_inc then ']' else ')'])))

/-! ## Character and digit lemmas -/

theorem strL_empty_eq : strL "empty" = ['e', 'm', 'p', 't', 'y'] := rfl

theorem digitChar_val : ∀ m, m < 10 → (digitChar m).toNat - 48 = m := by decide

theorem digitChar_isDigit : ∀ m, m < 10 → (digitChar m).isDigit = true := by decide

theorem space_not_digit (c : Char) (h : isCSpace c = true) : c.isDigit = false := by
  unfold isCSpace at h
  simp only [Bool.or_eq_true, beq_iff_eq] at h
  rcases h with ((((h | h) | h) | h) | h) | h <;> subst h <;> decide

theorem digit_not_space (c : Char) (h : c.isDigit = true) : isCSpace c = false := by
  cases hsp : isCSpace c
  · rfl
  · rw [space_not_digit c hsp] at h
    cases h

theorem digit_ne (c : Char) (h : c.isDigit = true) :
    c ≠ ',' ∧ c ≠ '+' ∧ c ≠ '-' ∧ c ≠ '.' ∧ c ≠ 'e' ∧ c ≠ 'E' := by
  refine ⟨?_, ?_, ?_, ?_, ?_, ?_⟩ <;> intro he <;> subst he <;> simp at h

theorem takeWhile_eq_self (l : List Char) (p : Char → Bool) (h : ∀ c ∈ l, p c = true) :
    l.takeWhile p = l := by
  induction l with
  | nil => rfl
  | cons a l ih =>
    simp [List.takeWhile_cons, h a (List.mem_cons_self _ _),
      ih fun c hc => h c (List.mem_cons_of_mem _ hc)]

theorem digitsToNat_append_one (l : List Char) (c : Char) :
    digitsToNat (l ++ [c]) = 10 * digitsToNat l + (c.toNat - 48) := by
  simp [digitsToNat, List.foldl_append]

theorem natToDigitsAux_acc (fuel n : Nat) (acc : List Char) :
    natToDigitsAux fuel n acc = natToDigitsAux fuel n [] ++ acc := by
  induction fuel generalizing n acc with
  | zero => rfl
  | succ fuel ih =>
    by_cases h : n < 10
    · simp [natToDigitsAux, h]
    · rw [natToDigitsAux, if_neg h, natToDigitsAux, if_neg h,
          ih (n / 10) (digitChar (n % 10) :: acc), ih (n / 10) [digitChar (n % 10)]]
      simp

theorem natToDigitsAux_val (fuel n : Nat) (h : n < 10 ^ fuel) :
    digitsToNat (natToDigitsAux fuel n []) = n := by
  induction fuel generalizing n with
  | zero =>
    simp at h
    subst h
    rfl
  | succ fuel ih =>
    by_cases h10 : n < 10
    · have hone : digitsToNat [digitChar n] = (digitChar n).toNat - 48 := by
        simp [digitsToNat]
      rw [natToDigitsAux, if_pos h10, hone, digitChar_val n h10]
    · rw [natToDigitsAux, if_neg h10,
          natToDigitsAux_acc fuel (n / 10) [digitChar (n % 10)],
          digitsToNat_append_one,
          ih (n / 10) (by
            have hlt : n < 10 * 10 ^ fuel := by
              calc n < 10 ^ (fuel + 1) := h
                _ = 10 * 10 ^ fuel := by ring
            omega),
          digitChar_val (n % 10) (Nat.mod_lt _ (by norm_num))]
      omega

theorem digitsToNat_natToDigits (n : Nat) : digitsToNat (natToDigits n) = n := by
  unfold natToDigits
  refine natToDigitsAux_val (n + 1) n ?_
  calc n < 2 ^ n := Nat.lt_two_pow n
    _ ≤ 10 ^ n := Nat.pow_le_pow_left (by norm_num) n
    _ ≤ 10 ^ (n + 1) := Nat.pow_le_pow_right (by norm_num) (by omega)

theorem natToDigitsAux_digits (fuel n : Nat) (acc : List Char)
    (hacc : ∀ c ∈ acc, c.isDigit = true) :
    ∀ c ∈ natToDigitsAux fuel n acc, c.isDigit = true := by
  induction fuel generalizing n acc with
  | zero => exact hacc
  | succ fuel ih =>
    by_cases h : n < 10
    · intro c hc
      rw [natToDigitsAux, if_pos h] at hc
      rcases List.mem_cons.mp hc with rfl | hc
      · exact digitChar_isDigit n h
      · exact hacc c hc
    · intro c hc
      rw [natToDigitsAux, if_neg h] at hc
      refine ih (n / 10) _ ?_ c hc
      intro c hc
      rcases List.mem_cons.mp hc with rfl | hc
      · exact digitChar_isDigit _ (Nat.mod_lt _ (by norm_num))
      · exact hacc c hc

theorem natToDigits_digits (n : Nat) : ∀ c ∈ natToDigits n, c.isDigit = true :=
  natToDigitsAux_digits (n + 1) n [] (by simp)

theorem natToDigits_ne_nil (n : Nat) : natToDigits n ≠ [] := by
  unfold natToDigits
  rw [natToDigitsAux]
  by_cases h : n < 10
  · simp [h]
  · rw [if_neg h, natToDigitsAux_acc]
    simp

theorem intToString_chars (i : Int) :
    ∀ c ∈ intToString i, c = '-' ∨ c.isDigit = true := by
  unfold intToString
  by_cases h : i < 0
  · rw [if_pos h]
    intro c hc
    rcases List.mem_cons.mp hc with rfl | hc
    · exact .inl rfl
    · exact .inr (natToDigits_digits _ c hc)
  · rw [if_neg h]
    intro c hc
    exact .inr (natToDigits_digits _ c hc)

theorem intToString_ne_nil (i : Int) : intToString i ≠ [] := by
  unfold intToString
  by_cases h : i < 0
  · simp [h]
  · simp [h, natToDigits_ne_nil]

/-! ## stoi lemmas -/

theorem stoiL_range (cs : List Char) (v : Int) (h : stoiL cs = some v) :
    -(2 ^ 31) ≤ v ∧ v ≤ 2 ^ 31 - 1 := by
  simp only [stoiL] at h
  split at h
  · cases h
  · split at h
    · cases h
    · next hcond =>
      injection h with hv
      subst hv
      push_neg at hcond
      omega

theorem signSplit_digit (c : Char) (t : List Char) (hc : c.isDigit = true) :
    signSplit (c :: t) = (1, c :: t) := by
  have h1 := (digit_ne c hc).2.1
  have h2 := (digit_ne c hc).2.2.1
  simp [signSplit, h1, h2]

theorem signSplit_neg (t : List Char) : signSplit ('-' :: t) = (-1, t) := by
  simp [signSplit]

theorem isEmpty_false_of_ne_nil (l : List Char) (h : l ≠ []) : l.isEmpty = false := by
  cases l
  · exact absurd rfl h
  · rfl

theorem stoiL_pos_digits (l : List Char) (hne : l ≠ []) (hd : ∀ c ∈ l, c.isDigit = true)
    (hub : (digitsToNat l : Int) ≤ 2 ^ 31 - 1) :
    stoiL l = some ((digitsToNat l : Int)) := by
  obtain ⟨c, t, rfl⟩ := List.exists_cons_of_ne_nil hne
  have hc := hd c (List.mem_cons_self _ _)
  simp only [stoiL, List.dropWhile_cons, digit_not_space c hc, Bool.false_eq_true,
    if_false, signSplit_digit c t hc, takeWhile_eq_self _ _ hd, List.isEmpty_cons,
    one_mul]
  rw [if_neg fun hcon => by rcases hcon with hcon | hcon <;> omega]

theorem stoiL_neg_digits (l : List Char) (hne : l ≠ []) (hd : ∀ c ∈ l, c.isDigit = true)
    (hub : (digitsToNat l : Int) ≤ 2 ^ 31) :
    stoiL ('-' :: l) = some (-(digitsToNat l : Int)) := by
  have hsp : isCSpace '-' = false := by decide
  simp only [stoiL, List.dropWhile_cons, hsp, Bool.false_eq_true, if_false,
    signSplit_neg, takeWhile_eq_self _ _ hd, isEmpty_false_of_ne_nil l hne,
    neg_one_mul]
  rw [if_neg fun hcon => by rcases hcon with hcon | hcon <;> omega]

theorem stoiL_intToString (i : Int) (h1 : -(2 ^ 31) ≤ i) (h2 : i ≤ 2 ^ 31 - 1) :
    stoiL (intToString i) = some i := by
  unfold intToString
  by_cases hneg : i < 0
  · rw [if_pos hneg]
    have hub : (digitsToNat (natToDigits i.natAbs) : Int) ≤ 2 ^ 31 := by
      rw [digitsToNat_natToDigits]
      omega
    rw [stoiL_neg_digits _ (natToDigits_ne_nil _) (natToDigits_digits _) hub,
        digitsToNat_natToDigits]
    congr 1
    omega
  · rw [if_neg hneg]
    have hub : (digitsToNat (natToDigits i.toNat) : Int) ≤ 2 ^ 31 - 1 := by
      rw [digitsToNat_natToDigits]
      omega
    rw [stoiL_pos_digits _ (natToDigits_ne_nil _) (natToDigits_digits _) hub,
        digitsToNat_natToDigits]
    congr 1
    omega
/-! ## Parser characterization -/

theorem ciEquals_cons_false (a b : Char) (as bs : List Char)
    (h : (toLowerAscii a == toLowerAscii b) = false) :
    ciEquals (a :: as) (b :: bs) = false := by
  unfold ciEquals
  rw [h]
  exact Bool.false_and _

theorem ciEquals_empty_of_head (cs : List Char) (li : Bool) (h3 : ¬ cs.length < 3)
    (hlo : lowerIncOfChar (cs.headD ' ') = some li) :
    ciEquals cs (strL "empty") = false := by
  cases cs with
  | nil => simp at h3
  | cons c rest =>
    simp only [List.headD_cons] at hlo
    have hc : c = '[' ∨ c = '(' := by
      unfold lowerIncOfChar at hlo
      by_cases h1 : c = '['
      · exact .inl h1
      · rw [if_neg h1] at hlo
        by_cases h2 : c = '('
        · exact .inr h2
        · rw [if_neg h2] at hlo
          cases hlo
    rw [strL_empty_eq]
    rcases hc with rfl | rfl
    · exact ciEquals_cons_false _ _ _ _ (by decide)
    · exact ciEquals_cons_false _ _ _ _ (by decide)

theorem parseRangeWith_reduce {α : Type} (scalar : List Char → Option α) (one zero : α)
    (cs : List Char) (li ui : Bool) (k : Nat)
    (h3 : ¬ cs.length < 3)
    (hlo : lowerIncOfChar (cs.headD ' ') = some li)
    (hup : upperIncOfChar (cs.getLastD ' ') = some ui)
    (hk : findComma cs = some k) :
    parseRangeWith scalar one zero cs =
      match scalar ((cs.drop 1).take (k - 1)),
          scalar ((cs.drop (k + 1)).take (cs.length - k - 2)) with
      | some lo, some hi => .ok ⟨lo, hi, li, ui⟩
      | _, _ => .error .InvalidScalar := by
  have hci := ciEquals_empty_of_head cs li h3 hlo
  unfold parseRangeWith
  rw [hci, hlo, hup, hk]
  simp [h3]

theorem parseRangeWith_characterization {α : Type} (scalar : List Char → Option α)
    (one zero : α) (cs : List Char) (li ui : Bool) (k : Nat)
    (h3 : ¬ cs.length < 3)
    (hlo : lowerIncOfChar (cs.headD ' ') = some li)
    (hup : upperIncOfChar (cs.getLastD ' ') = some ui)
    (hk : findComma cs = some k) :
    (parseRangeWith scalar one zero cs = .error .InvalidScalar ↔
      scalar ((cs.drop 1).take (k - 1)) = none ∨
        scalar ((cs.drop (k + 1)).take (cs.length - k - 2)) = none) ∧
    ∀ lo hi, scalar ((cs.drop 1).take (k - 1)) = some lo →
      scalar ((cs.drop (k + 1)).take (cs.length - k - 2)) = some hi →
      parseRangeWith scalar one zero cs = .ok ⟨lo, hi, li, ui⟩ := by
  have hred := parseRangeWith_reduce scalar one zero cs li ui k h3 hlo hup hk
  constructor
  · rcases hl : scalar ((cs.drop 1).take (k - 1)) with _ | lo <;>
      rcases hu : scalar ((cs.drop (k + 1)).take (cs.length - k - 2)) with _ | hi <;>
      rw [hred, hl, hu] <;> simp
  · intro lo hi hl hu
    rw [hred, hl, hu]

theorem parseRangeWith_ok_inv {α : Type} (scalar : List Char → Option α)
    (one zero : α) (cs : List Char) (r : RangeG α)
    (hci : ciEquals cs (strL "empty") = false)
    (h : parseRangeWith scalar one zero cs = .ok r) :
    ∃ k, ¬ cs.length < 3 ∧
      lowerIncOfChar (cs.headD ' ') = some r.lower_inc ∧
      upperIncOfChar (cs.getLastD ' ') = some r.upper_inc ∧
      findComma cs = some k ∧
      scalar ((cs.drop 1).take (k - 1)) = some r.lower ∧
      scalar ((cs.drop (k + 1)).take (cs.length - k - 2)) = some r.upper := by
  unfold parseRangeWith at h
  rw [hci] at h
  simp only [Bool.false_eq_true, if_false] at h
  split at h
  · cases h
  next h3 =>
    split at h
    · cases h
    next li hlo =>
      split at h
      · cases h
      next ui hup =>
        split at h
        · cases h
        next k hk =>
          split at h
          next lo hi hl hu =>
            injection h with hr
            subst hr
            exact ⟨k, h3, hlo, hup, hk, hl, hu⟩
          next => cases h

theorem parseRangeWith_ci_empty {α : Type} (scalar : List Char → Option α)
    (one zero : α) (cs : List Char) (hci : ciEquals cs (strL "empty") = true) :
    parseRangeWith scalar one zero cs = .ok ⟨one, zero, false, false⟩ := by
  unfold parseRangeWith
  rw [hci]
  rfl

theorem parseRangeWith_ok_range (cs : List Char) (r : Int4Range)
    (h : ParseInt4Range cs = .ok r) :
    -(2 ^ 31) ≤ r.lower ∧ r.lower ≤ 2 ^ 31 - 1 ∧
      -(2 ^ 31) ≤ r.upper ∧ r.upper ≤ 2 ^ 31 - 1 := by
  unfold ParseInt4Range at h
  cases hci : ciEquals cs (strL "empty") with
  | true =>
    rw [parseRangeWith_ci_empty stoiL 1 0 cs hci] at h
    injection h with hr
    subst hr
    norm_num
  | false =>
    obtain ⟨k, h3, hlo, hup, hk, hl, hu⟩ := parseRangeWith_ok_inv stoiL 1 0 cs r hci h
    obtain ⟨a1, a2⟩ := stoiL_range _ _ hl
    obtain ⟨b1, b2⟩ := stoiL_range _ _ hu
    exact ⟨a1, a2, b1, b2⟩
/-! ## Formatted output structure -/

theorem drop_append_add (l1 l2 : List α) (n : Nat) :
    (l1 ++ l2).drop (l1.length + n) = l2.drop n := by
  induction l1 with
  | nil => simp
  | cons a l ih => simpa [Nat.succ_add] using ih

theorem getLastD_append_singleton (l : List α) (a d : α) :
    (l ++ [a]).getLastD d = a := by
  induction l generalizing d with
  | nil => rfl
  | cons b l ih =>
    rw [List.cons_append, List.getLastD_cons, ih]

theorem findComma_append_comma (l1 l2 : List Char) (h : ∀ c ∈ l1, c ≠ ',') :
    findComma (l1 ++ ',' :: l2) = some l1.length := by
  induction l1 with
  | nil => simp [findComma]
  | cons a l ih =>
    have ha : a ≠ ',' := h a (List.mem_cons_self _ _)
    rw [List.cons_append, findComma, if_neg ha,
        ih fun c hc => h c (List.mem_cons_of_mem _ hc)]
    rfl

theorem intToString_no_comma (i : Int) : ∀ c ∈ intToString i, c ≠ ',' := by
  intro c hc
  rcases intToString_chars i c hc with rfl | hd
  · decide
  · exact (digit_ne c hd).1

/-- A literal of the shape delimiter, comma-free scalar chunk, comma,
scalar chunk, delimiter parses back to exactly the denoted range. -/
theorem parse_format_shape {α : Type} (scalar : List Char → Option α) (one zero : α)
    (d1 d2 : Char) (L U : List Char) (li ui : Bool) (lo hi : α)
    (hd1 : lowerIncOfChar d1 = some li)
    (hd2 : upperIncOfChar d2 = some ui)
    (hLcomma : ∀ c ∈ L, c ≠ ',')
    (hL : scalar L = some lo) (hU : scalar U = some hi) :
    parseRangeWith scalar one zero (d1 :: (L ++ (',' :: (U ++ [d2])))) =
      .ok ⟨lo, hi, li, ui⟩ := by
  have hd1c : d1 ≠ ',' := by
    intro he
    subst he
    simp [lowerIncOfChar] at hd1
  have hlen : (d1 :: (L ++ (',' :: (U ++ [d2])))).length =
      L.length + U.length + 3 := by
    simp [List.length_cons, List.length_append]
    omega
  have h3 : ¬ (d1 :: (L ++ (',' :: (U ++ [d2])))).length < 3 := by
    rw [hlen]; omega
  have hlo : lowerIncOfChar ((d1 :: (L ++ (',' :: (U ++ [d2])))).headD ' ') = some li := by
    rw [List.headD_cons]; exact hd1
  have hassoc : L ++ (',' :: (U ++ [d2])) = (L ++ (',' :: U)) ++ [d2] := by
    simp
  have hup : upperIncOfChar ((d1 :: (L ++ (',' :: (U ++ [d2])))).getLastD ' ') = some ui := by
    rw [List.getLastD_cons, hassoc, getLastD_append_singleton]
    exact hd2
  have hk : findComma (d1 :: (L ++ (',' :: (U ++ [d2])))) = some (L.length + 1) := by
    rw [findComma, if_neg hd1c, findComma_append_comma L _ hLcomma]
    rfl
  have hsub1 : (((d1 :: (L ++ (',' :: (U ++ [d2]))))).drop 1).take (L.length + 1 - 1) = L := by
    rw [List.drop_succ_cons, List.drop_zero, Nat.add_sub_cancel]
    exact take_append_of_length _ _ _ rfl
  have hsub2 : (((d1 :: (L ++ (',' :: (U ++ [d2]))))).drop (L.length + 1 + 1)).take
      ((d1 :: (L ++ (',' :: (U ++ [d2])))).length - (L.length + 1) - 2) = U := by
    rw [hlen, List.drop_succ_cons]
    have e1 : (L ++ (',' :: (U ++ [d2]))).drop (L.length + 1) = (U ++ [d2]).drop 0 := by
      have := drop_append_add L (',' :: (U ++ [d2])) 1
      simpa using this
    rw [e1, List.drop_zero]
    have e2 : L.length + U.length + 3 - (L.length + 1) - 2 = U.length := by omega
    rw [e2]
    exact take_append_of_length _ _ _ rfl
  have hchar := parseRangeWith_characterization scalar one zero
    (d1 :: (L ++ (',' :: (U ++ [d2])))) li ui (L.length + 1) h3 hlo hup hk
  refine hchar.2 lo hi ?_ ?_
  · rw [hsub1]; exact hL
  · rw [hsub2]; exact hU

theorem parse_format_int (r : Int4Range) (hne : IsEmpty r = false)
    (h1 : -(2 ^ 31) ≤ r.lower) (h2 : r.lower ≤ 2 ^ 31 - 1)
    (h3 : -(2 ^ 31) ≤ r.upper) (h4 : r.upper ≤ 2 ^ 31 - 1) :
    ParseInt4Range (Int4RangeToVarchar r) = .ok r := by
  unfold ParseInt4Range Int4RangeToVarchar
  rw [hne]
  simp only [Bool.false_eq_true, if_false]
  exact parse_format_shape stoiL 1 0 _ _ _ _ r.lower_inc r.upper_inc r.lower r.upper
    (by cases r.lower_inc <;> rfl) (by cases r.upper_inc <;> rfl)
    (intToString_no_comma r.lower) (stoiL_intToString r.lower h1 h2)
    (stoiL_intToString r.upper h3 h4)
/-! ## Claim C2: text round trip -/

/-- C2 counterexample: in the float64 variant the formatter rounds every
bound to six decimals, so to_text(from_text(s)) is not semantically
equivalent to s.  At s = [0.0156252384185791015625,1) (lower bound
2^-6 + 2^-22, exactly representable in binary64) the round trip changes
the lower bound to 1/64; at s = [0,0.0000002384185791015625) (upper bound
2^-22) the round trip turns a non-empty range into an empty one. -/
theorem text_roundtrip_counterexample :
    (ParseNumRange (strL "[0.0156252384185791015625,1)") =
        .ok ⟨1 / 64 + 1 / 4194304, 1, true, false⟩ ∧
      NumRangeToVarchar ⟨1 / 64 + 1 / 4194304, 1, true, false⟩ =
        strL "[0.015625,1.000000)" ∧
      ParseNumRange (strL "[0.015625,1.000000)") = .ok ⟨1 / 64, 1, true, false⟩ ∧
      ((1 : Rat) / 64 + 1 / 4194304 = 1 / 64) = False) ∧
    (ParseNumRange (strL "[0,0.0000002384185791015625)") =
        .ok ⟨0, 1 / 4194304, true, false⟩ ∧
      IsEmptyNum ⟨0, 1 / 4194304, true, false⟩ = false ∧
      NumRangeToVarchar ⟨0, 1 / 4194304, true, false⟩ = strL "[0.000000,0.000000)" ∧
      ParseNumRange (strL "[0.000000,0.000000)") = .ok ⟨0, 0, true, false⟩ ∧
      IsEmptyNum ⟨0, 0, true, false⟩ = true) :=
  ⟨⟨by decide, by decide, by decide, by decide⟩,
    by decide, by decide, by decide, by decide, by decide⟩

/-- C2 (amended): for the int32 variant, to_text(from_text(s)) is
semantically equivalent to s for every accepted literal s: same is_empty,
and the same field quadruple whenever the range is non-empty; moreover in
both variants every case variant of the empty literal normalizes to the
output empty.  (The float64 variant does not satisfy the analogous
round trip because of the fixed 6-decimal formatting.) -/
theorem text_roundtrip :
    (∀ (cs : List Char) (r : Int4Range), ParseInt4Range cs = .ok r →
      ∃ r2, ParseInt4Range (Int4RangeToVarchar r) = .ok r2 ∧
        IsEmpty r2 = IsEmpty r ∧ (IsEmpty r = false → r2 = r)) ∧
    (∀ cs : List Char, ciEquals cs (strL "empty") = true →
      (ParseInt4Range cs).map Int4RangeToVarchar = .ok (strL "empty") ∧
      (ParseNumRange cs).map NumRangeToVarchar = .ok (strL "empty")) := by
  constructor
  · intro cs r hok
    obtain ⟨a1, a2, a3, a4⟩ := parseRangeWith_ok_range cs r hok
    by_cases hemp : IsEmpty r = true
    · refine ⟨⟨1, 0, false, false⟩, ?_, ?_, ?_⟩
      · rw [Int4RangeToVarchar, hemp]
        simp only [if_true]
        decide
      · rw [hemp]
        decide
      · intro hcon
        rw [hemp] at hcon
        cases hcon
    · have hne : IsEmpty r = false := by
        revert hemp
        cases IsEmpty r <;> simp
      exact ⟨r, parse_format_int r hne a1 a2 a3 a4, rfl, fun _ => rfl⟩
  · intro cs hci
    rw [ParseInt4Range, ParseNumRange, parseRangeWith_ci_empty stoiL 1 0 cs hci,
        parseRangeWith_ci_empty stodQ 1 0 cs hci]
    constructor
    · decide
    · decide

/-- C2 witness: the amended round trip applied to the literal [1,10) and
the empty normalization applied to the literal Empty. -/
theorem text_roundtrip_witness :
    (∃ r2, ParseInt4Range (Int4RangeToVarchar ⟨1, 10, true, false⟩) = .ok r2 ∧
      IsEmpty r2 = IsEmpty ⟨1, 10, true, false⟩ ∧
      (IsEmpty (⟨1, 10, true, false⟩ : Int4Range) = false → r2 = ⟨1, 10, true, false⟩)) ∧
    (ParseInt4Range (strL "Empty")).map Int4RangeToVarchar = .ok (strL "empty") :=
  ⟨text_roundtrip.1 (strL "[1,10)") ⟨1, 10, true, false⟩ (by decide),
    (text_roundtrip.2 (strL "Empty") (by decide)).1⟩

/-! ## Claim C3: scalar validation in the parser -/

/-- C3 counterexample: the scalar parsers do trim leading whitespace and do
ignore trailing non-numeric characters, because std::stoi and std::stod
parse the longest valid prefix after skipping whitespace; the literals
below are accepted, where the claim requires them to be rejected with
InvalidScalar. -/
theorem parser_scalar_counterexample :
    ParseInt4Range (strL "[ 1,10)") = .ok ⟨1, 10, true, false⟩ ∧
    ParseInt4Range (strL "[1x,10)") = .ok ⟨1, 10, true, false⟩ ∧
    ParseNumRange (strL "[ 2.5,10)") = .ok ⟨5 / 2, 10, true, false⟩ :=
  ⟨by decide, by decide, by decide⟩

/-- C3 (amended): for every input that passes the delimiter checks and
contains a comma, the parser splits at the first comma and fails with
InvalidScalar if and only if the scalar parser (std::stoi, respectively
std::stod) rejects one of the two bound substrings; the scalar parsers
skip leading whitespace and ignore trailing characters after a valid
numeric prefix, so such substrings are accepted rather than rejected.
When both substrings parse, the returned range carries exactly the two
parsed bounds and the delimiter inclusivity flags. -/
theorem parser_scalar_validation :
    (∀ (cs : List Char) (li ui : Bool) (k : Nat), ¬ cs.length < 3 →
      lowerIncOfChar (cs.headD ' ') = some li →
      upperIncOfChar (cs.getLastD ' ') = some ui →
      findComma cs = some k →
      ((ParseInt4Range cs = .error .InvalidScalar ↔
        stoiL ((cs.drop 1).take (k - 1)) = none ∨
          stoiL ((cs.drop (k + 1)).take (cs.length - k - 2)) = none) ∧
        ∀ lo hi, stoiL ((cs.drop 1).take (k - 1)) = some lo →
          stoiL ((cs.drop (k + 1)).take (cs.length - k - 2)) = some hi →
          ParseInt4Range cs = .ok ⟨lo, hi, li, ui⟩)) ∧
    (∀ (cs : List Char) (li ui : Bool) (k : Nat), ¬ cs.length < 3 →
      lowerIncOfChar (cs.headD ' ') = some li →
      upperIncOfChar (cs.getLastD ' ') = some ui →
      findComma cs = some k →
      ((ParseNumRange cs = .error .InvalidScalar ↔
        stodQ ((cs.drop 1).take (k - 1)) = none ∨
          stodQ ((cs.drop (k + 1)).take (cs.length - k - 2)) = none) ∧
        ∀ lo hi, stodQ ((cs.drop 1).take (k - 1)) = some lo →
          stodQ ((cs.drop (k + 1)).take (cs.length - k - 2)) = some hi →
          ParseNumRange cs = .ok ⟨lo, hi, li, ui⟩)) := by
  constructor
  · intro cs li ui k h3 hlo hup hk
    exact parseRangeWith_characterization stoiL 1 0 cs li ui k h3 hlo hup hk
  · intro cs li ui k h3 hlo hup hk
    exact parseRangeWith_characterization stodQ 1 0 cs li ui k h3 hlo hup hk

/-- C3 witness: the characterization applied to the literal [5,x) whose
upper substring fails std::stoi, and to the literal [5,7) where both
substrings parse. -/
theorem parser_scalar_validation_witness :
    ParseInt4Range (strL "[5,x)") = .error .InvalidScalar ∧
    ParseInt4Range (strL "[5,7)") = .ok ⟨5, 7, true, false⟩ :=
  ⟨((parser_scalar_validation.1 (strL "[5,x)") true false 2 (by decide) (by decide)
      (by decide) (by decide)).1).mpr (.inr (by decide)),
    (parser_scalar_validation.1 (strL "[5,7)") true false 2 (by decide) (by decide)
      (by decide) (by decide)).2 5 7 (by decide) (by decide)⟩

/-! ## Claim C7: canonical empty normalization -/

/-- C7: every input that is case-insensitively equal to the empty literal
parses, in both variants, to exactly the canonical quadruple
(lower 1, upper 0, both bounds exclusive); no other input is normalized:
a successful parse of any other input returns exactly the delimiter flags
and the two scalar values parsed from the bound substrings, so bound
combinations that merely satisfy is_empty are kept as data, unrewritten. -/
theorem canonical_empty_normalization :
    (∀ cs : List Char, ciEquals cs (strL "empty") = true →
      ParseInt4Range cs = .ok ⟨1, 0, false, false⟩ ∧
      ParseNumRange cs = .ok ⟨1, 0, false, false⟩) ∧
    (∀ (cs : List Char) (r : Int4Range), ciEquals cs (strL "empty") = false →
      ParseInt4Range cs = .ok r →
      ∃ k, lowerIncOfChar (cs.headD ' ') = some r.lower_inc ∧
        upperIncOfChar (cs.getLastD ' ') = some r.upper_inc ∧
        findComma cs = some k ∧
        stoiL ((cs.drop 1).take (k - 1)) = some r.lower ∧
        stoiL ((cs.drop (k + 1)).take (cs.length - k - 2)) = some r.upper) ∧
    (∀ (cs : List Char) (r : NumRange), ciEquals cs (strL "empty") = false →
      ParseNumRange cs = .ok r →
      ∃ k, lowerIncOfChar (cs.headD ' ') = some r.lower_inc ∧
        upperIncOfChar (cs.getLastD ' ') = some r.upper_inc ∧
        findComma cs = some k ∧
        stodQ ((cs.drop 1).take (k - 1)) = some r.lower ∧
        stodQ ((cs.drop (k + 1)).take (cs.length - k - 2)) = some r.upper) := by
  refine ⟨?_, ?_, ?_⟩
  · intro cs hci
    exact ⟨parseRangeWith_ci_empty stoiL 1 0 cs hci,
      parseRangeWith_ci_empty stodQ 1 0 cs hci⟩
  · intro cs r hci hok
    obtain ⟨k, _, b, c, d, e, f⟩ := parseRangeWith_ok_inv stoiL 1 0 cs r hci hok
    exact ⟨k, b, c, d, e, f⟩
  · intro cs r hci hok
    obtain ⟨k, _, b, c, d, e, f⟩ := parseRangeWith_ok_inv stodQ 1 0 cs r hci hok
    exact ⟨k, b, c, d, e, f⟩

/-- C7 witness: the normalization applied to the literal eMpTy in both
variants, and the no-rewriting clause applied to the non-canonical empty
literal (5,5). -/
theorem canonical_empty_normalization_witness :
    (ParseInt4Range (strL "eMpTy") = .ok ⟨1, 0, false, false⟩ ∧
      ParseNumRange (strL "eMpTy") = .ok ⟨1, 0, false, false⟩) ∧
    (∃ k, lowerIncOfChar ((strL "(5,5)").headD ' ') =
        some (RangeG.lower_inc ⟨5, 5, false, false⟩ : Bool) ∧
      upperIncOfChar ((strL "(5,5)").getLastD ' ') =
        some (RangeG.upper_inc ⟨5, 5, false, false⟩ : Bool) ∧
      findComma (strL "(5,5)") = some k ∧
      stoiL (((strL "(5,5)").drop 1).take (k - 1)) =
        some (RangeG.lower ⟨5, 5, false, false⟩ : Int) ∧
      stoiL (((strL "(5,5)").drop (k + 1)).take ((strL "(5,5)").length - k - 2)) =
        some (RangeG.upper ⟨5, 5, false, false⟩ : Int)) :=
  ⟨canonical_empty_normalization.1 (strL "eMpTy") (by decide),
    canonical_empty_normalization.2.1 (strL "(5,5)") ⟨5, 5, false, false⟩
      (by decide) (by decide)⟩
/-! ## Claim C8: formatter -/

/-- The integer formatter as worded by the spec: empty when is_empty, else
delimiter, lower, comma, upper, delimiter with the default decimal string
for each bound. -/
def Int4RangeToVarcharSpec (r : Int4Range) : List Char :=
  if isEmptySpec intLt intEq r then strL "empty"
  else (if r.lower_inc then strL "[" else strL "(") ++ intToString r.lower ++ strL "," ++
    intToString r.upper ++ (if r.upper_inc then strL "]" else strL ")")

/-- The floating formatter as worded by the spec, with fixed 6 digits after
the decimal point for each bound. -/
def NumRangeToVarcharSpec (r : NumRange) : List Char :=
  if isEmptySpec ratLt ratEq r then strL "empty"
  else (if r.lower_inc then strL "[" else strL "(") ++ doubleToString r.lower ++ strL "," ++
    doubleToString r.upper ++ (if r.upper_inc then strL "]" else strL ")")

/-- C8: the formatter emits exactly the string empty whenever is_empty
holds, regardless of the stored bounds, and otherwise emits the opening
delimiter chosen by lower_inclusive, the lower bound, a comma, the upper
bound and the closing delimiter chosen by upper_inclusive; integer bounds
use the default decimal string and floating bounds the fixed 6-digit
form. -/
theorem formatter_characterization :
    (∀ r : Int4Range, Int4RangeToVarchar r = Int4RangeToVarcharSpec r) ∧
    (∀ r : NumRange, NumRangeToVarchar r = NumRangeToVarcharSpec r) ∧
    Int4RangeToVarchar ⟨1, 10, true, false⟩ = strL "[1,10)" ∧
    Int4RangeToVarchar ⟨-3, 2, false, true⟩ = strL "(-3,2]" ∧
    Int4RangeToVarchar ⟨5, 1, true, true⟩ = strL "empty" ∧
    NumRangeToVarchar ⟨5 / 2, 7, true, true⟩ = strL "[2.500000,7.000000]" ∧
    NumRangeToVarchar ⟨-1 / 2, 3, false, false⟩ = strL "(-0.500000,3.000000)" := by
  refine ⟨?_, ?_, by decide, by decide, by decide, by decide, by decide⟩
  · intro r
    obtain ⟨lo, hi, li, ui⟩ := r
    unfold Int4RangeToVarchar Int4RangeToVarcharSpec IsEmpty
    rw [isEmptyG_eq_spec]
    by_cases h : isEmptySpec intLt intEq ⟨lo, hi, li, ui⟩
    · simp [h]
    · cases li <;> cases ui <;> simp [h, strL]
  · intro r
    obtain ⟨lo, hi, li, ui⟩ := r
    unfold NumRangeToVarchar NumRangeToVarcharSpec IsEmptyNum
    rw [isEmptyG_eq_spec]
    by_cases h : isEmptySpec ratLt ratEq ⟨lo, hi, li, ui⟩
    · simp [h]
    · cases li <;> cases ui <;> simp [h, strL]
end Ranges
